import Mathlib

/-!
Shallow embedding of the length-normalization engine of the `amend` library
(`src/amend/utilities/normalization.py`) and the length-handling phase of the
data-sequence amendment protocol (`src/amend/built_in/sequences/data_sequences.py`).

Conventions of the embedding:
* Python `int` is `Int`; sequence values (`bytes`, `bytearray`, `str`, `list`,
  `tuple`) are `List α` of their elements.
* Python floor division `//` is `Int.fdiv`; Python `%` with a positive modulus
  is `Int.emod` (both agree with Python's semantics on the domains used).
* A Python generator is embedded as a fuel-indexed loop: `genRun` executes up
  to `fuel` iterations of the `while` loop of
  `iterate_over_lengths_satisfying_constraints`, returning the list of yielded
  deltas together with a flag that is `true` exactly when the loop exited
  (guard failure or `break`) within the given fuel.  A caller that may consume
  unboundedly many proposals is in turn fuel-indexed and returns `none` when
  the fuel is exhausted before the Python code would have returned.
* Raising an exception is `Except.error`; argument coercions performed through
  `amend_integer` (clamping of `minimum_length`/`maximum_length` at 0,
  rejection of negative `length`) are embedded explicitly, and the embedding
  works on the already-typed domain (ints for lengths, lists for sequences),
  since every claim quantifies over well-typed inputs.
-/

/-- The four valid truncation/padding side preferences of the library. -/
inductive Side where
  | left
  | right
  | bothPrioritizeLeft
  | bothPrioritizeRight
deriving DecidableEq, Repr

/-- The valid `length_violation_action` values (besides unset, i.e. `none`). -/
inductive LengthViolationAction where
  | actError
  | actWarning
  | truncateAndPad
deriving DecidableEq, Repr

/-- `find_least_common_multiplier` (normalization.py, lines 31-98): `None` and
the empty collection give 1, otherwise every element is required to be at
least 1 (a `ValueError` otherwise) and the result is the left-to-right fold of
`lcm(a, b) = a * b // gcd(a, b)`. -/
def findLeastCommonMultiplier : Option (List Int) → Except String Int
  | none => .ok 1
  | some ms =>
    if ms.all (fun m => 1 ≤ m) then
      match ms with
      | [] => .ok 1
      | m :: rest => .ok (rest.foldl (fun acc e => (acc * e).fdiv (Int.gcd acc e)) m)
    else .error "element of multiples is smaller than 1"

/-- `amend_integer(minimum_length, value_on_cast_error=0, minimum_value=0,
value_violation_action="clamp")`: an absent minimum length becomes 0 and a
negative one is clamped to 0. -/
def amendMinimumLength : Option Int → Int
  | none => 0
  | some v => max 0 v

/-- `amend_integer(maximum_length, minimum_value=0,
value_violation_action="clamp")`, applied only when a maximum is given. -/
def amendMaximumLength : Option Int → Option Int
  | none => none
  | some v => some (max 0 v)

/-- The differential: 1 when `length_is_multiple_of` is `None`, otherwise the
least common multiplier of the divisors (normalization.py, lines 179-185). -/
def computeDifferential (divisors : Option (List Int)) : Except String Int :=
  match divisors with
  | none => .ok 1
  | some _ => findLeastCommonMultiplier divisors

/-- `length_when_truncated = length - (length % differential)`
(normalization.py, line 187); `%` is `Int.emod`, matching Python's `%` on the
nonnegative domain used. -/
def lengthWhenTruncated (len d : Int) : Int := len - len % d

/-- `length_when_padded = length + differential - (length % differential)`
(normalization.py, line 188). -/
def lengthWhenPadded (len d : Int) : Int := len + d - len % d

/-- `maximum_length is None or x <= maximum_length`. -/
def withinMax (maxL : Option Int) (x : Int) : Bool :=
  match maxL with
  | none => true
  | some M => x ≤ M

/-- One-while-loop-iteration-per-fuel-unit embedding of the loop of
`iterate_over_lengths_satisfying_constraints` (normalization.py, lines
193-216).  The state is the pair `(t, p)` of `length_when_truncated` and
`length_when_padded`; `new_length_when_truncated`/`new_length_when_padded`
always equal the current values at the start of an iteration (they are
initialized that way and reassigned into the current values at the end of each
iteration), so they are recomputed inside the step.  Returns the yielded
deltas and whether the loop exited (guard failure or `break`) within `fuel`
iterations. -/
def genRun (len minL : Int) (maxL : Option Int) (d : Int) :
    Nat → Int → Int → List Int × Bool
  | 0, _, _ => ([], false)
  | fuel + 1, t, p =>
    if minL ≤ t ∨ withinMax maxL p = true then
      let emitted :=
        (if minL ≤ t ∧ withinMax maxL t = true then [t - len] else []) ++
        (if withinMax maxL p = true ∧ minL ≤ p then [p - len] else [])
      let nt := if minL ≤ t then t - d else t
      let np := if withinMax maxL p = true then p + d else p
      if nt = t ∧ np = p then (emitted, true)
      else
        let rest := genRun len minL maxL d fuel nt np
        (emitted ++ rest.1, rest.2)
    else ([], true)

/-- `iterate_over_lengths_satisfying_constraints` on post-coercion arguments:
the yielded length-change proposals (and the loop-exit flag) of the first
`fuel` loop iterations. -/
def iterateOverLengthsSatisfyingConstraints (fuel : Nat) (len minL : Int)
    (maxL : Option Int) (d : Int) : List Int × Bool :=
  genRun len minL maxL d fuel (lengthWhenTruncated len d) (lengthWhenPadded len d)

/-- The split of an accepted nonzero proposal over the governing side
(normalization.py, lines 334-358), with Python `//` rendered as `Int.fdiv`. -/
def splitProposal (side : Side) (delta : Int) : Int × Int :=
  match side with
  | .left => (delta, 0)
  | .right => (0, delta)
  | s =>
    if (s = .bothPrioritizeLeft ∧ 0 < delta) ∨ (s = .bothPrioritizeRight ∧ delta < 0) then
      ((delta + 1).fdiv 2, delta.fdiv 2)
    else
      (delta.fdiv 2, (delta + 1).fdiv 2)

/-- The body of the `for` loop of `determine_length_normalization_strategy`
(normalization.py, lines 313-360) applied to a list of proposals: `some r`
means the Python function returned `r` (`r = none` being Python `None`) while
consuming these proposals; `none` means every proposal was skipped and the
loop would pull further. -/
def resolveProposals (tS pS : Option Side) : List Int → Option (Option (Int × Int))
  | [] => none
  | delta :: rest =>
    if delta = 0 then some (some (0, 0))
    else if tS = none ∧ pS = none then some none
    else
      match (if delta < 0 then tS else pS) with
      | none => resolveProposals tS pS rest
      | some s => some (some (splitProposal s delta))

/-- `determine_length_normalization_strategy` on post-coercion arguments, fuel
bounding the number of enumerator loop iterations: `some r` means the Python
function returns `r` (with `r = none` for Python `None`), `none` means the
fuel ran out before the Python code decided (in particular, a result of
`none` for every fuel is non-termination of the Python code). -/
def determineStrategyCore (fuel : Nat) (len minL : Int) (maxL : Option Int)
    (d : Int) (tS pS : Option Side) : Option (Option (Int × Int)) :=
  let gen := iterateOverLengthsSatisfyingConstraints fuel len minL maxL d
  match resolveProposals tS pS gen.1 with
  | some r => some r
  | none => if gen.2 then some none else none

/-- `determine_length_normalization_strategy` with the argument coercions of
the source: a negative `length` raises, `minimum_length` defaults to 0 and is
clamped at 0, `maximum_length` is clamped at 0 when given, and the
differential is the least common multiplier of `length_is_multiple_of` (whose
computation can itself raise). -/
def determineLengthNormalizationStrategy (fuel : Nat) (length : Int)
    (minLen maxLen : Option Int) (divisors : Option (List Int))
    (tS pS : Option Side) : Except String (Option (Option (Int × Int))) :=
  if length < 0 then .error "length is smaller than 0"
  else
    match computeDifferential divisors with
    | .error e => .error e
    | .ok d =>
      .ok (determineStrategyCore fuel length (amendMinimumLength minLen)
        (amendMaximumLength maxLen) d tS pS)

/-- The tiled padding block (normalization.py, lines 511-513 and 520-522):
the pattern repeated `ceil(n / len(pattern))` times and cut to exactly `n`
elements.  Callers always supply a non-empty pattern (the defaults are the
null byte, the underscore, and the singleton `None`). -/
def tilePadding {α : Type} (pad : List α) (n : Nat) : List α :=
  (List.flatten (List.replicate ((n + pad.length - 1) / pad.length) pad)).take n

/-- The two-sided length adjustment of `_normalize_length_of_data_sequence`
(normalization.py, lines 503-526): a negative left delta drops from the
front, a positive one prepends tiled padding; then symmetrically on the right
(`s[:r]` for negative `r` keeps all but the last `|r|` elements). -/
def normalizeLengthOfDataSequence {α : Type} (s : List α) (change : Int × Int)
    (pad : List α) : List α :=
  let s1 :=
    if change.1 < 0 then s.drop (-change.1).toNat
    else if 0 < change.1 then tilePadding pad change.1.toNat ++ s
    else s
  if change.2 < 0 then s1.take (s1.length - (-change.2).toNat)
  else if 0 < change.2 then s1 ++ tilePadding pad change.2.toNat
  else s1

/-- The two-sided length adjustment of `_normalize_length_of_sequence_container`
(normalization.py, lines 844-869): after the `list(...)` copy the algorithm is
elementwise identical to the data-sequence one. -/
def normalizeLengthOfSequenceContainer {α : Type} (s : List α) (change : Int × Int)
    (pad : List α) : List α :=
  let s1 :=
    if change.1 < 0 then s.drop (-change.1).toNat
    else if 0 < change.1 then tilePadding pad change.1.toNat ++ s
    else s
  if change.2 < 0 then s1.take (s1.length - (-change.2).toNat)
  else if 0 < change.2 then s1 ++ tilePadding pad change.2.toNat
  else s1

/-- The length-handling phase of `_amend_data_sequence` (data_sequences.py,
lines 228-271), taken after the type-check/cast phase (so on an already
well-typed, possibly cast, sequence).  `none` means the strategy search did
not decide within `fuel` enumerator iterations (the Python code would still be
looping).  Faithful to the source: when the proposal differs from `(0, 0)`,
the action `error` raises; `warning` warns and then still normalizes (a
`None` strategy acting as `(0, 0)` inside the normalizer); an unset action or
`truncate-and-pad` raises on a `None` strategy and otherwise normalizes. -/
def amendDataSequenceLengthPhase {α : Type} (fuel : Nat) (s : List α)
    (minLen maxLen : Option Int) (divisors : Option (List Int))
    (action : Option LengthViolationAction) (tS pS : Option Side)
    (pad : List α) : Option (Except String (List α)) :=
  match determineLengthNormalizationStrategy fuel (s.length : Int) minLen maxLen
      divisors tS pS with
  | .error e => some (.error e)
  | .ok none => none
  | .ok (some proposed) =>
    if proposed = some (0, 0) then some (.ok s)
    else
      match action with
      | some .actError => some (.error "incorrect length")
      | some .actWarning =>
        some (.ok (normalizeLengthOfDataSequence s (proposed.getD (0, 0)) pad))
      | _ =>
        match proposed with
        | none => some (.error "Impossible to satisfy length constraints")
        | some pair => some (.ok (normalizeLengthOfDataSequence s pair pad))

/-! ## Arithmetic helpers for the floor-division split -/

lemma fdiv_two_succ (δ : Int) : (δ + 1).fdiv 2 = δ - δ.fdiv 2 := by
  rw [Int.fdiv_eq_ediv _ (by norm_num), Int.fdiv_eq_ediv _ (by norm_num)]
  omega

lemma splitProposal_sum (s : Side) (δ : Int) :
    (splitProposal s δ).1 + (splitProposal s δ).2 = δ := by
  cases s <;> simp only [splitProposal]
  · ring
  · ring
  all_goals
    split <;>
      (rw [Int.fdiv_eq_ediv _ (by norm_num), Int.fdiv_eq_ediv _ (by norm_num)]; omega)

lemma splitProposal_signs (s : Side) (δ : Int) :
    (0 ≤ (splitProposal s δ).1 ∧ 0 ≤ (splitProposal s δ).2) ∨
      ((splitProposal s δ).1 ≤ 0 ∧ (splitProposal s δ).2 ≤ 0) := by
  cases s <;> simp only [splitProposal]
  · rcases le_or_lt 0 δ with h | h
    · exact Or.inl ⟨h, le_refl 0⟩
    · exact Or.inr ⟨le_of_lt h, le_refl 0⟩
  · rcases le_or_lt 0 δ with h | h
    · exact Or.inl ⟨le_refl 0, h⟩
    · exact Or.inr ⟨le_refl 0, le_of_lt h⟩
  all_goals
    split <;>
      (rw [Int.fdiv_eq_ediv _ (by norm_num), Int.fdiv_eq_ediv _ (by norm_num)]; omega)

/-! ## The least-common-multiplier fold -/

lemma int_gcd_mul_lcm_of_pos {a e : Int} (ha : 1 ≤ a) (he : 1 ≤ e) :
    a * e = (Int.gcd a e : Int) * (Int.lcm a e : Int) := by
  have h := Int.gcd_mul_lcm a e
  have habs : ((a * e).natAbs : Int) = a * e := Int.natAbs_of_nonneg (by positivity)
  calc a * e = ((a * e).natAbs : Int) := habs.symm
    _ = ((Int.gcd a e * Int.lcm a e : Nat) : Int) := by rw [h]
    _ = (Int.gcd a e : Int) * (Int.lcm a e : Int) := by push_cast; ring

lemma int_lcm_one_le {a e : Int} (ha : 1 ≤ a) (he : 1 ≤ e) : 1 ≤ (Int.lcm a e : Int) := by
  have hmul := int_gcd_mul_lcm_of_pos ha he
  have h0 : (0 : Int) ≤ (Int.lcm a e : Int) := by positivity
  rcases h0.lt_or_eq with h | h
  · omega
  · exfalso
    have : a * e = 0 := by rw [hmul, ← h, mul_zero]
    nlinarith

lemma lcm_fold_step {a e : Int} (ha : 1 ≤ a) (he : 1 ≤ e) :
    (a * e).fdiv (Int.gcd a e) = (Int.lcm a e : Int) := by
  have hgcd : (Int.gcd a e : Int) ≠ 0 := by
    have h : a.gcd e ≠ 0 := by
      simp only [ne_eq, Int.gcd_eq_zero_iff, not_and_or]
      exact Or.inl (by omega)
    exact_mod_cast h
  rw [int_gcd_mul_lcm_of_pos ha he, Int.mul_fdiv_cancel_left _ hgcd]

lemma lcm_foldl_spec :
    ∀ (xs : List Int) (a : Int), 1 ≤ a → (∀ x ∈ xs, 1 ≤ x) →
      1 ≤ xs.foldl (fun acc e => (acc * e).fdiv (Int.gcd acc e)) a ∧
      a ∣ xs.foldl (fun acc e => (acc * e).fdiv (Int.gcd acc e)) a ∧
      (∀ x ∈ xs, x ∣ xs.foldl (fun acc e => (acc * e).fdiv (Int.gcd acc e)) a) ∧
      ∀ m : Int, a ∣ m → (∀ x ∈ xs, x ∣ m) →
        xs.foldl (fun acc e => (acc * e).fdiv (Int.gcd acc e)) a ∣ m := by
  intro xs
  induction xs with
  | nil =>
    intro a ha _
    exact ⟨ha, dvd_refl a, by simp, fun m hm _ => hm⟩
  | cons e xs ih =>
    intro a ha hall
    have he : 1 ≤ e := hall e (List.mem_cons_self e xs)
    have hxs : ∀ x ∈ xs, 1 ≤ x := fun x hx => hall x (List.mem_cons_of_mem e hx)
    have hstep : (a * e).fdiv (Int.gcd a e) = (Int.lcm a e : Int) := lcm_fold_step ha he
    have hl := int_lcm_one_le ha he
    simp only [List.foldl_cons, hstep]
    obtain ⟨h1, h2, h3, h4⟩ := ih _ hl hxs
    refine ⟨h1, dvd_trans Int.dvd_lcm_left h2, ?_, ?_⟩
    · intro x hx
      rcases List.mem_cons.mp hx with rfl | hx
      · exact dvd_trans Int.dvd_lcm_right h2
      · exact h3 x hx
    · intro m hm hall'
      refine h4 m (Int.lcm_dvd hm (hall' e (List.mem_cons_self e xs))) ?_
      exact fun x hx => hall' x (List.mem_cons_of_mem e hx)

/-- C5: `find_least_common_multiplier` returns 1 for absent or empty input and
`n` for a singleton `[n]`; for any non-empty collection of positive integers
it returns the smallest positive integer divisible by every element (the
left-to-right pairwise `lcm` fold); any element smaller than 1 makes it raise
instead of returning. -/
theorem find_least_common_multiplier_spec :
    findLeastCommonMultiplier none = .ok 1 ∧
    findLeastCommonMultiplier (some []) = .ok 1 ∧
    (∀ n : Int, 1 ≤ n → findLeastCommonMultiplier (some [n]) = .ok n) ∧
    (∀ xs : List Int, xs ≠ [] → (∀ x ∈ xs, 1 ≤ x) →
      ∃ L, findLeastCommonMultiplier (some xs) = .ok L ∧ 1 ≤ L ∧
        (∀ x ∈ xs, x ∣ L) ∧ ∀ m : Int, 1 ≤ m → (∀ x ∈ xs, x ∣ m) → L ≤ m) ∧
    (∀ xs : List Int, (∃ x ∈ xs, x < 1) →
      findLeastCommonMultiplier (some xs) = .error "element of multiples is smaller than 1") := by
  refine ⟨rfl, rfl, ?_, ?_, ?_⟩
  · intro n hn
    simp [findLeastCommonMultiplier, hn]
  · intro xs hne hall
    have hcond : xs.all (fun m => 1 ≤ m) = true := by
      rw [List.all_eq_true]
      intro x hx
      exact decide_eq_true (hall x hx)
    cases xs with
    | nil => exact absurd rfl hne
    | cons a rest =>
      have ha : 1 ≤ a := hall a (List.mem_cons_self a rest)
      have hrest : ∀ x ∈ rest, 1 ≤ x := fun x hx => hall x (List.mem_cons_of_mem a hx)
      obtain ⟨h1, h2, h3, h4⟩ := lcm_foldl_spec rest a ha hrest
      refine ⟨_, ?_, h1, ?_, ?_⟩
      · simp only [findLeastCommonMultiplier, hcond, if_true]
      · intro x hx
        rcases List.mem_cons.mp hx with rfl | hx
        · exact h2
        · exact h3 x hx
      · intro m hm hall'
        refine Int.le_of_dvd (by omega) (h4 m (hall' a (List.mem_cons_self a rest)) ?_)
        exact fun x hx => hall' x (List.mem_cons_of_mem a hx)
  · intro xs ⟨x, hx, hlt⟩
    have hcond : xs.all (fun m => 1 ≤ m) = false := by
      rw [← Bool.not_eq_true, List.all_eq_true]
      intro hc
      have := of_decide_eq_true (hc x hx)
      omega
    simp [findLeastCommonMultiplier, hcond]

/-- Witness for `find_least_common_multiplier_spec` at the concrete collection
`[4, 6]`. -/
theorem find_least_common_multiplier_spec_witness :
    ∃ L, findLeastCommonMultiplier (some [4, 6]) = .ok L ∧ 1 ≤ L ∧
      (∀ x ∈ ([4, 6] : List Int), x ∣ L) ∧
      ∀ m : Int, 1 ≤ m → (∀ x ∈ ([4, 6] : List Int), x ∣ m) → L ≤ m :=
  find_least_common_multiplier_spec.2.2.2.1 [4, 6] (by decide)
    (by intro x hx; fin_cases hx <;> norm_num)

/-! ## The no-op strategy -/

lemma withinMax_true_iff {maxL : Option Int} {x : Int} :
    withinMax maxL x = true ↔ ∀ M, maxL = some M → x ≤ M := by
  cases maxL <;> simp [withinMax]

lemma determineStrategyCore_noop (fuel : Nat) (len minL : Int) (maxL : Option Int)
    (d : Int) (tS pS : Option Side) (hfuel : 1 ≤ fuel) (hminL : minL ≤ len)
    (hmaxL : withinMax maxL len = true) (hdvd : d ∣ len) :
    determineStrategyCore fuel len minL maxL d tS pS = some (some (0, 0)) := by
  obtain ⟨n, rfl⟩ : ∃ n, fuel = n + 1 := ⟨fuel - 1, by omega⟩
  have hmod : len % d = 0 := Int.emod_eq_zero_of_dvd hdvd
  have hgen : ∃ l, (iterateOverLengthsSatisfyingConstraints (n + 1) len minL maxL d).1
      = 0 :: l := by
    unfold iterateOverLengthsSatisfyingConstraints lengthWhenTruncated lengthWhenPadded
    rw [hmod]
    simp only [genRun, sub_zero]
    rw [if_pos (Or.inl hminL)]
    have hc1 : minL ≤ len ∧ withinMax maxL len = true := ⟨hminL, hmaxL⟩
    simp only [if_pos hc1, sub_self]
    repeat first
    | exact ⟨_, rfl⟩
    | split
  obtain ⟨l, hl⟩ := hgen
  simp only [determineStrategyCore]
  rw [hl]
  simp [resolveProposals]

/-- C4: when the length already satisfies the minimum, the maximum, and every
divisor, `determine_length_normalization_strategy` returns `(0, 0)` whatever
the (possibly unset) truncation and padding sides are. -/
theorem determine_strategy_noop_when_length_valid
    (fuel : Nat) (length : Int) (minLen maxLen : Option Int)
    (divisors : Option (List Int)) (tS pS : Option Side)
    (hfuel : 1 ≤ fuel) (hlen : 0 ≤ length)
    (hmin : ∀ m, minLen = some m → m ≤ length)
    (hmax : ∀ M, maxLen = some M → length ≤ M)
    (hdiv : ∀ xs, divisors = some xs → ∀ x ∈ xs, 1 ≤ x ∧ x ∣ length) :
    determineLengthNormalizationStrategy fuel length minLen maxLen divisors tS pS
      = .ok (some (some (0, 0))) := by
  have hD : ∃ d, computeDifferential divisors = .ok d ∧ d ∣ length := by
    cases divisors with
    | none => exact ⟨1, rfl, one_dvd length⟩
    | some xs =>
      have hall : ∀ x ∈ xs, 1 ≤ x := fun x hx => (hdiv xs rfl x hx).1
      have hdvdall : ∀ x ∈ xs, x ∣ length := fun x hx => (hdiv xs rfl x hx).2
      have hcond : xs.all (fun m => 1 ≤ m) = true := by
        rw [List.all_eq_true]
        exact fun x hx => decide_eq_true (hall x hx)
      cases xs with
      | nil => exact ⟨1, rfl, one_dvd length⟩
      | cons a rest =>
        have ha : 1 ≤ a := hall a (List.mem_cons_self a rest)
        have hrest : ∀ x ∈ rest, 1 ≤ x := fun x hx => hall x (List.mem_cons_of_mem a hx)
        obtain ⟨h1, h2, h3, h4⟩ := lcm_foldl_spec rest a ha hrest
        refine ⟨List.foldl (fun acc e => (acc * e).fdiv (Int.gcd acc e)) a rest, ?_, ?_⟩
        · simp only [computeDifferential, findLeastCommonMultiplier, hcond, if_true]
        · exact h4 length (hdvdall a (List.mem_cons_self a rest))
            (fun x hx => hdvdall x (List.mem_cons_of_mem a hx))
  obtain ⟨d, hDok, hDdvd⟩ := hD
  unfold determineLengthNormalizationStrategy
  rw [if_neg (by omega), hDok]
  have hminL : amendMinimumLength minLen ≤ length := by
    cases minLen with
    | none => simpa [amendMinimumLength]
    | some m =>
      have := hmin m rfl
      simp only [amendMinimumLength]
      omega
  have hmaxL : withinMax (amendMaximumLength maxLen) length = true := by
    rw [withinMax_true_iff]
    intro M hM
    cases maxLen with
    | none => simp [amendMaximumLength] at hM
    | some M' =>
      have := hmax M' rfl
      simp only [amendMaximumLength, Option.some.injEq] at hM
      omega
  exact congrArg Except.ok
    (determineStrategyCore_noop fuel length _ _ d tS pS hfuel hminL hmaxL hDdvd)

/-- Witness for `determine_strategy_noop_when_length_valid` at length 6 with
minimum 2, maximum 8, divisors `[2, 3]`. -/
theorem determine_strategy_noop_when_length_valid_witness :
    determineLengthNormalizationStrategy 1 6 (some 2) (some 8) (some [2, 3])
      (some Side.left) (some Side.right) = .ok (some (some (0, 0))) :=
  determine_strategy_noop_when_length_valid 1 6 (some 2) (some 8) (some [2, 3])
    (some Side.left) (some Side.right) (by norm_num) (by norm_num)
    (by intro m hm; injection hm with h; omega)
    (by intro M hM; injection hM with h; omega)
    (by
      intro xs hxs x hx
      injection hxs with h
      subst h
      fin_cases hx <;> norm_num)

/-! ## Walk starting points (claim C8) -/

/-- C8 counterexample: for length 4 and differential 2 (a length that is
already a multiple), the truncation-side start is 4 but the padding-side
start is `4 + 2 = 6`, not 4 as the claim states. -/
theorem length_when_padded_at_multiple_ne_length :
    lengthWhenTruncated 4 2 = 4 ∧ lengthWhenPadded 4 2 = 6 ∧
      lengthWhenPadded 4 2 ≠ 4 := by decide

/-- C8 amended: when the length is a multiple of the differential `d`, the
truncation-side start equals the length but the padding-side start is
`length + d` (the smallest multiple of `d` strictly above the length), so the
first padding-side candidate has delta `d`, not 0; delta 0 arises from the
truncation side only. -/
theorem length_when_padded_start_of_multiple (len d : Int)
    (_hd : 1 ≤ d) (hdvd : d ∣ len) :
    lengthWhenTruncated len d = len ∧ lengthWhenPadded len d = len + d := by
  have hmod : len % d = 0 := Int.emod_eq_zero_of_dvd hdvd
  unfold lengthWhenTruncated lengthWhenPadded
  rw [hmod]
  constructor <;> ring

/-- Witness for `length_when_padded_start_of_multiple` at length 6,
differential 3. -/
theorem length_when_padded_start_of_multiple_witness :
    lengthWhenTruncated 6 3 = 6 ∧ lengthWhenPadded 6 3 = 6 + 3 :=
  length_when_padded_start_of_multiple 6 3 (by norm_num) (by norm_num)

/-! ## The accepted-proposal split (claim C6) -/

lemma splitProposal_bothLeft_eq (δ : Int) :
    splitProposal Side.bothPrioritizeLeft δ =
      if (Side.bothPrioritizeLeft = Side.bothPrioritizeLeft ∧ 0 < δ) ∨
          (Side.bothPrioritizeLeft = Side.bothPrioritizeRight ∧ δ < 0) then
        ((δ + 1).fdiv 2, δ.fdiv 2)
      else (δ.fdiv 2, (δ + 1).fdiv 2) := rfl

lemma splitProposal_bothRight_eq (δ : Int) :
    splitProposal Side.bothPrioritizeRight δ =
      if (Side.bothPrioritizeRight = Side.bothPrioritizeLeft ∧ 0 < δ) ∨
          (Side.bothPrioritizeRight = Side.bothPrioritizeRight ∧ δ < 0) then
        ((δ + 1).fdiv 2, δ.fdiv 2)
      else (δ.fdiv 2, (δ + 1).fdiv 2) := rfl

lemma splitProposal_bothLeft_pos {δ : Int} (h : 0 < δ) :
    splitProposal Side.bothPrioritizeLeft δ = ((δ + 1).fdiv 2, δ.fdiv 2) := by
  rw [splitProposal_bothLeft_eq, if_pos (Or.inl ⟨rfl, h⟩)]

lemma splitProposal_bothLeft_neg {δ : Int} (h : δ < 0) :
    splitProposal Side.bothPrioritizeLeft δ = (δ.fdiv 2, (δ + 1).fdiv 2) := by
  have hcond : ¬ ((Side.bothPrioritizeLeft = Side.bothPrioritizeLeft ∧ 0 < δ) ∨
      (Side.bothPrioritizeLeft = Side.bothPrioritizeRight ∧ δ < 0)) := by
    rintro (⟨-, h'⟩ | ⟨h', -⟩)
    · omega
    · exact Side.noConfusion h'
  rw [splitProposal_bothLeft_eq, if_neg hcond]

lemma splitProposal_bothRight_pos {δ : Int} (h : 0 < δ) :
    splitProposal Side.bothPrioritizeRight δ = (δ.fdiv 2, (δ + 1).fdiv 2) := by
  have hcond : ¬ ((Side.bothPrioritizeRight = Side.bothPrioritizeLeft ∧ 0 < δ) ∨
      (Side.bothPrioritizeRight = Side.bothPrioritizeRight ∧ δ < 0)) := by
    rintro (⟨h', -⟩ | ⟨-, h'⟩)
    · exact Side.noConfusion h'
    · omega
  rw [splitProposal_bothRight_eq, if_neg hcond]

lemma splitProposal_bothRight_neg {δ : Int} (h : δ < 0) :
    splitProposal Side.bothPrioritizeRight δ = ((δ + 1).fdiv 2, δ.fdiv 2) := by
  rw [splitProposal_bothRight_eq, if_pos (Or.inr ⟨rfl, h⟩)]

/-- C6: an accepted nonzero proposal is split by the governing side: `left`
gives `(delta, 0)`, `right` gives `(0, delta)`, `both-but-prioritize-left`
gives `(ceil(delta/2), floor(delta/2))` for positive delta and
`(floor(delta/2), delta - floor(delta/2))` for negative delta, with
`both-but-prioritize-right` the mirror; and the literal strategy evaluations:
length 5 with maximum 2 gives `(-3, 0)`, `(0, -3)`, `(-2, -1)`, `(-1, -2)` for
the four truncation sides, and length 8 with divisors `(5,)` and truncation
side `both-but-prioritize-left` gives `(-2, -1)`. -/
theorem determine_strategy_split_sides :
    (∀ δ : Int,
      splitProposal Side.left δ = (δ, 0) ∧
      splitProposal Side.right δ = (0, δ) ∧
      (0 < δ → splitProposal Side.bothPrioritizeLeft δ = ((δ + 1).fdiv 2, δ.fdiv 2) ∧
        splitProposal Side.bothPrioritizeRight δ = (δ.fdiv 2, δ - δ.fdiv 2)) ∧
      (δ < 0 → splitProposal Side.bothPrioritizeLeft δ = (δ.fdiv 2, δ - δ.fdiv 2) ∧
        splitProposal Side.bothPrioritizeRight δ = ((δ + 1).fdiv 2, δ.fdiv 2))) ∧
    determineLengthNormalizationStrategy 6 5 none (some 2) none
      (some Side.left) none = .ok (some (some (-3, 0))) ∧
    determineLengthNormalizationStrategy 6 5 none (some 2) none
      (some Side.right) none = .ok (some (some (0, -3))) ∧
    determineLengthNormalizationStrategy 6 5 none (some 2) none
      (some Side.bothPrioritizeLeft) none = .ok (some (some (-2, -1))) ∧
    determineLengthNormalizationStrategy 6 5 none (some 2) none
      (some Side.bothPrioritizeRight) none = .ok (some (some (-1, -2))) ∧
    determineLengthNormalizationStrategy 6 8 none none (some [5])
      (some Side.bothPrioritizeLeft) none = .ok (some (some (-2, -1))) := by
  refine ⟨?_, by rfl, by rfl, by rfl, by rfl, by rfl⟩
  intro δ
  refine ⟨rfl, rfl, ?_, ?_⟩
  · intro hpos
    refine ⟨splitProposal_bothLeft_pos hpos, ?_⟩
    rw [splitProposal_bothRight_pos hpos, fdiv_two_succ]
  · intro hneg
    refine ⟨?_, splitProposal_bothRight_neg hneg⟩
    rw [splitProposal_bothLeft_neg hneg, fdiv_two_succ]

/-- Witness for `determine_strategy_split_sides` at delta 7 (positive) for
`both-but-prioritize-left`. -/
theorem determine_strategy_split_sides_witness :
    splitProposal Side.bothPrioritizeLeft 7 = (((7 : Int) + 1).fdiv 2, (7 : Int).fdiv 2) :=
  (((determine_strategy_split_sides.1 7).2.2.1 (by norm_num)).1)

/-! ## The length-handling phase with an unset violation action (claim C1) -/

/-- C1: with `length_violation_action` unset and a violated maximum length,
`_amend_data_sequence` does not silently return the sequence unchanged: with
both sides unset it raises "Impossible to satisfy length constraints", and
with a truncation side set it truncates the sequence. -/
theorem amend_data_sequence_unset_action_raises_or_modifies :
    amendDataSequenceLengthPhase 6 ([0, 1, 2] : List Int) none (some 2) none
      none none none [0]
      = some (.error "Impossible to satisfy length constraints") ∧
    amendDataSequenceLengthPhase 6 ([0, 1, 2] : List Int) none (some 2) none
      none (some Side.right) none [9]
      = some (.ok [0, 1]) ∧
    ([0, 1] : List Int) ≠ [0, 1, 2] := by
  refine ⟨by rfl, by rfl, by decide⟩

/-! ## Enumeration order (claim C3) -/

/-- C3 counterexample: for length 5 with divisor set `(3,)` (no bounds), the
first two yielded proposals are `-2` then `1`, whose absolute values strictly
decrease, so the proposals are not yielded nearest-first. -/
theorem iterate_proposals_not_nearest_first :
    (iterateOverLengthsSatisfyingConstraints 1 5 0 none 3).1 = [-2, 1] ∧
      ¬ List.Pairwise (fun a b : Int => a.natAbs ≤ b.natAbs)
        (iterateOverLengthsSatisfyingConstraints 1 5 0 none 3).1 := by
  refine ⟨by decide, ?_⟩
  intro h
  rw [show (iterateOverLengthsSatisfyingConstraints 1 5 0 none 3).1 = [-2, 1] by decide] at h
  have := List.rel_of_pairwise_cons h (List.mem_singleton_self 1)
  omega

/-! ## The two-sided length adjuster (claim C7) -/

lemma tilePadding_length {α : Type} (pad : List α) (n : Nat) (hpad : pad ≠ []) :
    (tilePadding pad n).length = n := by
  have hpl : 1 ≤ pad.length := List.length_pos.mpr hpad
  unfold tilePadding
  rw [List.length_take]
  have hlen : (List.flatten (List.replicate ((n + pad.length - 1) / pad.length) pad)).length
      = ((n + pad.length - 1) / pad.length) * pad.length := by
    rw [List.length_flatten, List.map_replicate, List.sum_replicate, smul_eq_mul]
  rw [hlen]
  have hdm := Nat.div_add_mod (n + pad.length - 1) pad.length
  have hmlt : (n + pad.length - 1) % pad.length < pad.length := Nat.mod_lt _ (by omega)
  set q := (n + pad.length - 1) / pad.length with hq
  set r := (n + pad.length - 1) % pad.length with hr
  have hqp : pad.length * q = n + pad.length - 1 - r := by omega
  have hge : n ≤ q * pad.length := by
    rw [Nat.mul_comm, hqp]
    omega
  omega

lemma normalize_length_core {α : Type} (s pad : List α) (a b : Int) (hpad : pad ≠ []) :
    ((0 ≤ a → 0 ≤ b →
      ((normalizeLengthOfDataSequence s (a, b) pad).length : Int) = s.length + a + b) ∧
     (a ≤ 0 → b ≤ 0 →
      ((normalizeLengthOfDataSequence s (a, b) pad).length : Int)
        = max 0 (s.length + a + b))) := by
  constructor
  · intro ha hb
    have hna : ¬ a < 0 := by omega
    have hnb : ¬ b < 0 := by omega
    unfold normalizeLengthOfDataSequence
    dsimp only
    by_cases ha0 : 0 < a <;> by_cases hb0 : 0 < b <;>
      simp only [hna, hnb, ha0, hb0, if_true, if_false, List.length_append,
        tilePadding_length _ _ hpad] <;>
      omega
  · intro ha hb
    have hna : ¬ 0 < a := by omega
    have hnb : ¬ 0 < b := by omega
    unfold normalizeLengthOfDataSequence
    dsimp only
    by_cases ha0 : a < 0 <;> by_cases hb0 : b < 0 <;>
      simp only [hna, hnb, ha0, hb0, if_true, if_false, List.length_take,
        List.length_drop] <;>
      omega

lemma sequence_container_eq_data_sequence {α : Type} (s : List α) (change : Int × Int)
    (pad : List α) :
    normalizeLengthOfSequenceContainer s change pad
      = normalizeLengthOfDataSequence s change pad := rfl

/-- C7: for every sequence, padding pattern, and delta pair `(a, b)`, both
two-sided length adjusters return a value of length `len(s) + a + b` when
`a, b ≥ 0`, and of length `max 0 (len(s) + a + b)` when `a, b ≤ 0`
(over-truncation clamps to empty and never raises). -/
theorem normalize_length_adjuster_length {α : Type} (s pad : List α) (a b : Int)
    (hpad : pad ≠ []) :
    (0 ≤ a → 0 ≤ b →
      ((normalizeLengthOfDataSequence s (a, b) pad).length : Int) = s.length + a + b ∧
      ((normalizeLengthOfSequenceContainer s (a, b) pad).length : Int) = s.length + a + b) ∧
    (a ≤ 0 → b ≤ 0 →
      ((normalizeLengthOfDataSequence s (a, b) pad).length : Int)
        = max 0 (s.length + a + b) ∧
      ((normalizeLengthOfSequenceContainer s (a, b) pad).length : Int)
        = max 0 (s.length + a + b)) := by
  obtain ⟨h1, h2⟩ := normalize_length_core s pad a b hpad
  rw [sequence_container_eq_data_sequence]
  exact ⟨fun ha hb => ⟨h1 ha hb, h1 ha hb⟩, fun ha hb => ⟨h2 ha hb, h2 ha hb⟩⟩

/-- Witness for `normalize_length_adjuster_length`: concrete padding and
truncation instances on a three-element sequence. -/
theorem normalize_length_adjuster_length_witness :
    (((normalizeLengthOfDataSequence ([10, 20, 30] : List Int) (2, 1) [7]).length : Int)
        = 3 + 2 + 1 ∧
      ((normalizeLengthOfSequenceContainer ([10, 20, 30] : List Int) (2, 1) [7]).length : Int)
        = 3 + 2 + 1) ∧
    (((normalizeLengthOfDataSequence ([10, 20, 30] : List Int) (-1, -9) [7]).length : Int)
        = max 0 (3 + -1 + -9) ∧
      ((normalizeLengthOfSequenceContainer ([10, 20, 30] : List Int) (-1, -9) [7]).length : Int)
        = max 0 (3 + -1 + -9)) :=
  ⟨(normalize_length_adjuster_length [10, 20, 30] [7] 2 1 (by decide)).1
      (by norm_num) (by norm_num),
   (normalize_length_adjuster_length [10, 20, 30] [7] (-1) (-9) (by decide)).2
      (by norm_num) (by norm_num)⟩

/-! ## Unrolling the enumerator loop -/

lemma genRun_succ_eq (len minL : Int) (maxL : Option Int) (d : Int) (n : Nat)
    (t p : Int) :
    genRun len minL maxL d (n + 1) t p =
      if minL ≤ t ∨ withinMax maxL p = true then
        if (if minL ≤ t then t - d else t) = t ∧
            (if withinMax maxL p = true then p + d else p) = p then
          ((if minL ≤ t ∧ withinMax maxL t = true then [t - len] else []) ++
            (if withinMax maxL p = true ∧ minL ≤ p then [p - len] else []), true)
        else
          (((if minL ≤ t ∧ withinMax maxL t = true then [t - len] else []) ++
             (if withinMax maxL p = true ∧ minL ≤ p then [p - len] else [])) ++
            (genRun len minL maxL d n (if minL ≤ t then t - d else t)
              (if withinMax maxL p = true then p + d else p)).1,
           (genRun len minL maxL d n (if minL ≤ t then t - d else t)
              (if withinMax maxL p = true then p + d else p)).2)
      else ([], true) := rfl

/-! ## Soundness of accepted strategies (claim C9) -/

lemma dvd_lengthWhenTruncated (len d : Int) : d ∣ lengthWhenTruncated len d := by
  have hid := Int.ediv_add_emod len d
  exact ⟨len / d, by unfold lengthWhenTruncated; omega⟩

lemma dvd_lengthWhenPadded (len d : Int) : d ∣ lengthWhenPadded len d := by
  have h : lengthWhenPadded len d = lengthWhenTruncated len d + d := by
    unfold lengthWhenPadded lengthWhenTruncated
    ring
  rw [h]
  exact dvd_add (dvd_lengthWhenTruncated len d) (dvd_refl d)

lemma genRun_emission_sound (len minL : Int) (maxL : Option Int) (d : Int) :
    ∀ (fuel : Nat) (t p : Int), d ∣ t → d ∣ p →
      ∀ e ∈ (genRun len minL maxL d fuel t p).1,
        minL ≤ len + e ∧ withinMax maxL (len + e) = true ∧ d ∣ (len + e) := by
  intro fuel
  induction fuel with
  | zero =>
    intro t p _ _ e he
    simp [genRun] at he
  | succ n ih =>
    intro t p hdt hdp e he
    rw [genRun_succ_eq] at he
    have hndt : d ∣ (if minL ≤ t then t - d else t) := by
      by_cases h : minL ≤ t
      · rw [if_pos h]
        exact dvd_sub hdt (dvd_refl d)
      · rw [if_neg h]
        exact hdt
    have hndp : d ∣ (if withinMax maxL p = true then p + d else p) := by
      by_cases h : withinMax maxL p = true
      · rw [if_pos h]
        exact dvd_add hdp (dvd_refl d)
      · rw [if_neg h]
        exact hdp
    have hemit : ∀ e,
        e ∈ ((if minL ≤ t ∧ withinMax maxL t = true then [t - len] else []) ++
          (if withinMax maxL p = true ∧ minL ≤ p then [p - len] else [])) →
        minL ≤ len + e ∧ withinMax maxL (len + e) = true ∧ d ∣ (len + e) := by
      intro e he
      rcases List.mem_append.mp he with he | he
      · by_cases hc : minL ≤ t ∧ withinMax maxL t = true
        · rw [if_pos hc] at he
          have : e = t - len := List.mem_singleton.mp he
          subst this
          have ht : len + (t - len) = t := by ring
          rw [ht]
          exact ⟨hc.1, hc.2, hdt⟩
        · rw [if_neg hc] at he
          cases he
      · by_cases hc : withinMax maxL p = true ∧ minL ≤ p
        · rw [if_pos hc] at he
          have : e = p - len := List.mem_singleton.mp he
          subst this
          have hp : len + (p - len) = p := by ring
          rw [hp]
          exact ⟨hc.2, hc.1, hdp⟩
        · rw [if_neg hc] at he
          cases he
    by_cases hguard : minL ≤ t ∨ withinMax maxL p = true
    · rw [if_pos hguard] at he
      by_cases hbreak : (if minL ≤ t then t - d else t) = t ∧
          (if withinMax maxL p = true then p + d else p) = p
      · rw [if_pos hbreak] at he
        exact hemit e he
      · rw [if_neg hbreak] at he
        rcases List.mem_append.mp he with he | he
        · exact hemit e he
        · exact ih _ _ hndt hndp e he
    · rw [if_neg hguard] at he
      cases he

lemma determineStrategyCore_pair_inv {fuel : Nat} {len minL : Int} {maxL : Option Int}
    {d : Int} {tS pS : Option Side} {pr : Int × Int}
    (h : determineStrategyCore fuel len minL maxL d tS pS = some (some pr)) :
    resolveProposals tS pS
      (iterateOverLengthsSatisfyingConstraints fuel len minL maxL d).1 = some (some pr) := by
  simp only [determineStrategyCore] at h
  rcases hres : resolveProposals tS pS
      (iterateOverLengthsSatisfyingConstraints fuel len minL maxL d).1 with _ | r
  · rw [hres] at h
    have h' : (if (iterateOverLengthsSatisfyingConstraints fuel len minL maxL d).2 = true
        then some none else none) = some (some pr) := h
    by_cases hfin : (iterateOverLengthsSatisfyingConstraints fuel len minL maxL d).2 = true
    · rw [if_pos hfin] at h'
      exact absurd (Option.some.inj h') (by simp)
    · rw [if_neg hfin] at h'
      exact absurd h' (by simp)
  · rw [hres] at h
    have h' : some r = some (some pr) := h
    rw [← Option.some.inj h']

lemma resolveProposals_sound (tS pS : Option Side) :
    ∀ (l : List Int) (a b : Int),
      resolveProposals tS pS l = some (some (a, b)) →
      ∃ δ ∈ l, a + b = δ ∧ ((0 ≤ a ∧ 0 ≤ b) ∨ (a ≤ 0 ∧ b ≤ 0)) := by
  intro l
  induction l with
  | nil =>
    intro a b h
    simp [resolveProposals] at h
  | cons δ rest ih =>
    intro a b h
    rw [resolveProposals] at h
    by_cases h0 : δ = 0
    · rw [if_pos h0] at h
      simp only [Option.some.injEq, Prod.mk.injEq] at h
      obtain ⟨ha, hb⟩ := h
      refine ⟨δ, List.mem_cons_self δ rest, by omega, by omega⟩
    · rw [if_neg h0] at h
      by_cases hnone : tS = none ∧ pS = none
      · rw [if_pos hnone] at h
        simp at h
      · rw [if_neg hnone] at h
        rcases hside : (if δ < 0 then tS else pS) with _ | s
        · rw [hside] at h
          obtain ⟨δ', hmem, hsum, hsign⟩ := ih a b h
          exact ⟨δ', List.mem_cons_of_mem δ hmem, hsum, hsign⟩
        · rw [hside] at h
          simp only [Option.some.injEq] at h
          have hsum : a + b = δ := by
            have := splitProposal_sum s δ
            rw [h] at this
            exact this
          have hsg : (0 ≤ a ∧ 0 ≤ b) ∨ (a ≤ 0 ∧ b ≤ 0) := by
            have := splitProposal_signs s δ
            rw [h] at this
            exact this
          exact ⟨δ, List.mem_cons_self δ rest, hsum, hsg⟩

lemma computeDifferential_one_le (divisors : Option (List Int)) (D : Int)
    (hD : computeDifferential divisors = .ok D) : 1 ≤ D := by
  cases divisors with
  | none =>
    simp only [computeDifferential, Except.ok.injEq] at hD
    omega
  | some ms =>
    simp only [computeDifferential, findLeastCommonMultiplier] at hD
    split at hD
    · rename_i hall
      rw [List.all_eq_true] at hall
      cases ms with
      | nil =>
        simp only [Except.ok.injEq] at hD
        omega
      | cons m rest =>
        have hm : 1 ≤ m := of_decide_eq_true (hall m (List.mem_cons_self m rest))
        have hrest : ∀ x ∈ rest, 1 ≤ x :=
          fun x hx => of_decide_eq_true (hall x (List.mem_cons_of_mem m hx))
        obtain ⟨h1, -, -, -⟩ := lcm_foldl_spec rest m hm hrest
        simp only [Except.ok.injEq] at hD
        omega
    · cases hD

/-- C9: whenever `determine_length_normalization_strategy` returns a pair
rather than `None`, its components never have opposite signs, and the
adjusted length `length + left_delta + right_delta` is at least the effective
minimum length (0 when unset), at most the (clamped) maximum length when one
is given, and a multiple of the least common multiplier of the divisors. -/
theorem determine_strategy_result_satisfies_constraints
    (fuel : Nat) (length : Int) (minLen maxLen : Option Int)
    (divisors : Option (List Int)) (tS pS : Option Side) (a b : Int)
    (h : determineLengthNormalizationStrategy fuel length minLen maxLen divisors tS pS
      = .ok (some (some (a, b)))) :
    ((0 ≤ a ∧ 0 ≤ b) ∨ (a ≤ 0 ∧ b ≤ 0)) ∧
    amendMinimumLength minLen ≤ length + a + b ∧
    (∀ M, amendMaximumLength maxLen = some M → length + a + b ≤ M) ∧
    (∀ D, computeDifferential divisors = .ok D → D ∣ (length + a + b)) := by
  unfold determineLengthNormalizationStrategy at h
  by_cases hneg : length < 0
  · rw [if_pos hneg] at h
    cases h
  rw [if_neg hneg] at h
  rcases hD : computeDifferential divisors with e | D
  · rw [hD] at h
    cases h
  rw [hD] at h
  simp only [Except.ok.injEq] at h
  have hres := determineStrategyCore_pair_inv h
  obtain ⟨δ, hmem, hsum, hsign⟩ := resolveProposals_sound tS pS _ a b hres
  have hsound := genRun_emission_sound length (amendMinimumLength minLen)
    (amendMaximumLength maxLen) D fuel _ _
    (dvd_lengthWhenTruncated length D) (dvd_lengthWhenPadded length D) δ hmem
  obtain ⟨hmin, hmax, hdvd⟩ := hsound
  have hδ : length + a + b = length + δ := by omega
  refine ⟨hsign, ?_, ?_, ?_⟩
  · rw [hδ]
    exact hmin
  · intro M hM
    rw [hδ]
    exact (withinMax_true_iff.mp hmax) M hM
  · intro D' hD'
    have hDD : D = D' := by
      injection hD' with h'
    rw [hδ, ← hDD]
    exact hdvd

/-- Witness for `determine_strategy_result_satisfies_constraints` at the
accepted strategy `(-3, 0)` for length 5 with maximum 2 and left
truncation. -/
theorem determine_strategy_result_satisfies_constraints_witness :
    (((0 : Int) ≤ -3 ∧ (0 : Int) ≤ 0) ∨ ((-3 : Int) ≤ 0 ∧ (0 : Int) ≤ 0)) ∧
    amendMinimumLength none ≤ 5 + -3 + 0 ∧
    (∀ M, amendMaximumLength (some 2) = some M → 5 + -3 + 0 ≤ M) ∧
    (∀ D, computeDifferential none = .ok D → D ∣ (5 + -3 + 0)) :=
  determine_strategy_result_satisfies_constraints 6 5 none (some 2) none
    (some Side.left) none (-3) 0 (by rfl)

/-! ## Termination of the strategy search (claim C2) -/

lemma withinMax_some_iff {M x : Int} : withinMax (some M) x = true ↔ x ≤ M := by
  simp [withinMax]

lemma genRun_finishes_of_bounded (len minL M d : Int) (hd : 1 ≤ d) :
    ∀ (n : Nat) (t p : Int),
      (t + d - minL).toNat + (M + d - p).toNat ≤ n →
      (genRun len minL (some M) d (n + 1) t p).2 = true := by
  intro n
  induction n with
  | zero =>
    intro t p hμ
    have h1 : ¬ minL ≤ t := by omega
    have h2 : ¬ p ≤ M := by omega
    rw [genRun_succ_eq, if_neg]
    · rintro (h | h)
      · exact h1 h
      · rw [withinMax_some_iff] at h
        exact h2 h
  | succ n ih =>
    intro t p hμ
    rw [genRun_succ_eq]
    by_cases hguard : minL ≤ t ∨ withinMax (some M) p = true
    · rw [if_pos hguard]
      by_cases hbreak : (if minL ≤ t then t - d else t) = t ∧
          (if withinMax (some M) p = true then p + d else p) = p
      · rw [if_pos hbreak]
      · rw [if_neg hbreak]
        apply ih
        by_cases ht : minL ≤ t
        · rw [if_pos ht]
          by_cases hp : withinMax (some M) p = true
          · rw [if_pos hp]
            rw [withinMax_some_iff] at hp
            omega
          · rw [if_neg hp]
            rw [withinMax_some_iff] at hp
            omega
        · rw [if_neg ht]
          by_cases hp : withinMax (some M) p = true
          · rw [if_pos hp]
            rw [withinMax_some_iff] at hp
            omega
          · exact absurd ⟨if_neg ht, if_neg hp⟩ hbreak
    · rw [if_neg hguard]

lemma determineStrategyCore_isSome_of_finished {fuel : Nat} {len minL : Int}
    {maxL : Option Int} {d : Int} (tS pS : Option Side)
    (hfin : (iterateOverLengthsSatisfyingConstraints fuel len minL maxL d).2 = true) :
    ∃ r, determineStrategyCore fuel len minL maxL d tS pS = some r := by
  simp only [determineStrategyCore]
  rcases hres : resolveProposals tS pS
      (iterateOverLengthsSatisfyingConstraints fuel len minL maxL d).1 with _ | r
  · refine ⟨none, ?_⟩
    show (if (iterateOverLengthsSatisfyingConstraints fuel len minL maxL d).2 = true
      then some none else none) = some none
    rw [if_pos hfin]
  · exact ⟨r, rfl⟩

lemma determineStrategyCore_terminates_of_bounded (len minL M d : Int) (hd : 1 ≤ d)
    (tS pS : Option Side) :
    ∃ fuel r, determineStrategyCore fuel len minL (some M) d tS pS = some r := by
  refine ⟨(lengthWhenTruncated len d + d - minL).toNat
    + (M + d - lengthWhenPadded len d).toNat + 1, ?_⟩
  have hfin : (iterateOverLengthsSatisfyingConstraints
      ((lengthWhenTruncated len d + d - minL).toNat
        + (M + d - lengthWhenPadded len d).toNat + 1) len minL (some M) d).2 = true := by
    unfold iterateOverLengthsSatisfyingConstraints
    exact genRun_finishes_of_bounded len minL M d hd _ _ _ (le_refl _)
  exact determineStrategyCore_isSome_of_finished tS pS hfin

/-- C2 amended: whenever a maximum length is supplied, the strategy search of
`determine_length_normalization_strategy` terminates, returning either an
accepted pair or `None`. -/
theorem determine_strategy_terminates_when_bounded
    (length : Int) (minLen : Option Int) (M : Int) (divisors : Option (List Int))
    (tS pS : Option Side) (hlen : 0 ≤ length)
    (hdiv : ∀ xs, divisors = some xs → ∀ x ∈ xs, 1 ≤ x) :
    ∃ fuel r, determineLengthNormalizationStrategy fuel length minLen (some M)
      divisors tS pS = .ok (some r) := by
  have hD : ∃ d, computeDifferential divisors = .ok d := by
    cases divisors with
    | none => exact ⟨1, rfl⟩
    | some xs =>
      have hcond : xs.all (fun m => 1 ≤ m) = true := by
        rw [List.all_eq_true]
        exact fun x hx => decide_eq_true (hdiv xs rfl x hx)
      cases xs with
      | nil => exact ⟨1, by simp [computeDifferential, findLeastCommonMultiplier]⟩
      | cons a rest =>
        exact ⟨List.foldl (fun acc e => (acc * e).fdiv (Int.gcd acc e)) a rest,
          by simp only [computeDifferential, findLeastCommonMultiplier, hcond, if_true]⟩
  obtain ⟨d, hDok⟩ := hD
  have hd : 1 ≤ d := computeDifferential_one_le divisors d hDok
  obtain ⟨fuel, r, hcore⟩ := determineStrategyCore_terminates_of_bounded length
    (amendMinimumLength minLen) (max 0 M) d hd tS pS
  refine ⟨fuel, r, ?_⟩
  unfold determineLengthNormalizationStrategy
  rw [if_neg (by omega), hDok]
  exact congrArg Except.ok hcore

/-- Witness for `determine_strategy_terminates_when_bounded`: length 5,
minimum 10, maximum 7, divisors `[2]`, truncation side `left`. -/
theorem determine_strategy_terminates_when_bounded_witness :
    ∃ fuel r, determineLengthNormalizationStrategy fuel 5 (some 10) (some 7)
      (some [2]) (some Side.left) none = .ok (some r) :=
  determine_strategy_terminates_when_bounded 5 (some 10) 7 (some [2])
    (some Side.left) none (by norm_num)
    (by
      intro xs hxs x hx
      injection hxs with h
      subst h
      fin_cases hx
      norm_num)

lemma strategy_diverges_aux :
    ∀ (fuel : Nat) (p : Int), 6 ≤ p →
      (genRun 5 10 none 1 fuel 5 p).2 = false ∧
      resolveProposals (some Side.left) none (genRun 5 10 none 1 fuel 5 p).1 = none := by
  intro fuel
  induction fuel with
  | zero =>
    intro p hp
    exact ⟨rfl, rfl⟩
  | succ n ih =>
    intro p hp
    have hwm : ∀ x : Int, withinMax none x = true := fun _ => rfl
    rw [genRun_succ_eq]
    have hguard : (10 : Int) ≤ 5 ∨ withinMax none p = true := Or.inr (hwm p)
    rw [if_pos hguard]
    have ht : ¬ (10 : Int) ≤ 5 := by norm_num
    have hbreak : ¬ ((if (10 : Int) ≤ 5 then (5 : Int) - 1 else 5) = 5 ∧
        (if withinMax none p = true then p + 1 else p) = p) := by
      rw [if_neg ht, if_pos (hwm p)]
      rintro ⟨-, h2⟩
      omega
    rw [if_neg hbreak, if_neg ht, if_pos (hwm p)]
    obtain ⟨ihfin, ihres⟩ := ih (p + 1) (by omega)
    have hemitT : (if (10 : Int) ≤ 5 ∧ withinMax none 5 = true
        then [(5 : Int) - 5] else []) = [] := if_neg (by rintro ⟨h, -⟩; exact ht h)
    refine ⟨ihfin, ?_⟩
    rw [hemitT]
    by_cases hpy : (10 : Int) ≤ p
    · have hemitP : (if withinMax none p = true ∧ (10 : Int) ≤ p
          then [p - 5] else []) = [p - 5] := if_pos ⟨hwm p, hpy⟩
      rw [hemitP]
      simp only [List.nil_append, List.cons_append]
      rw [resolveProposals]
      rw [if_neg (by omega : ¬ (p - 5 = 0))]
      rw [if_neg (by simp : ¬ ((some Side.left) = none ∧ (none : Option Side) = none))]
      rw [if_neg (by omega : ¬ (p - 5 < 0))]
      exact ihres
    · have hemitP : (if withinMax none p = true ∧ (10 : Int) ≤ p
          then [p - 5] else []) = [] := if_neg (by rintro ⟨-, h⟩; exact hpy h)
      rw [hemitP]
      simp only [List.nil_append]
      exact ihres

lemma determineStrategyCore_diverges (fuel : Nat) :
    determineStrategyCore fuel 5 10 none 1 (some Side.left) none = none := by
  have ht0 : lengthWhenTruncated 5 1 = 5 := by norm_num [lengthWhenTruncated]
  have hp0 : lengthWhenPadded 5 1 = 6 := by norm_num [lengthWhenPadded]
  obtain ⟨hfin, hres⟩ := strategy_diverges_aux fuel 6 (by norm_num)
  simp only [determineStrategyCore, iterateOverLengthsSatisfyingConstraints, ht0, hp0]
  simp [hres, hfin]

/-- C2 counterexample: with length 5, minimum length 10, no maximum length,
truncation side `left` and padding side unset, the required direction
(padding) is disabled while the opposite bound is absent, and
`determine_length_normalization_strategy` does not terminate: no amount of
enumerator fuel makes it return. -/
theorem determine_strategy_unbounded_disabled_direction_diverges :
    ¬ ∃ fuel r, determineLengthNormalizationStrategy fuel 5 (some 10) none none
      (some Side.left) none = .ok (some r) := by
  rintro ⟨fuel, r, h⟩
  unfold determineLengthNormalizationStrategy at h
  rw [if_neg (by norm_num)] at h
  have h' : determineStrategyCore fuel 5 10 none 1 (some Side.left) none
      = some r := Except.ok.inj h
  rw [determineStrategyCore_diverges fuel] at h'
  cases h'

/-! ## Enumeration order under a balanced remainder (claim C3, amended) -/

lemma genRun_pairwise (len minL : Int) (maxL : Option Int) (d : Int) (hd : 1 ≤ d) :
    ∀ (fuel : Nat) (t p : Int) (B : Nat),
      t ≤ len → len < p →
      (minL ≤ t → B ≤ (len - t).toNat) →
      (withinMax maxL p = true → B ≤ (p - len).toNat) →
      (minL ≤ t → withinMax maxL p = true → 2 * len ≤ t + p) →
      (minL ≤ t → t + p ≤ 2 * len + d) →
      List.Pairwise (fun a b : Int => a.natAbs ≤ b.natAbs)
        (genRun len minL maxL d fuel t p).1 ∧
      ∀ e ∈ (genRun len minL maxL d fuel t p).1, B ≤ e.natAbs := by
  intro fuel
  induction fuel with
  | zero =>
    intro t p B _ _ _ _ _ _
    exact ⟨List.Pairwise.nil, fun e he => absurd he (List.not_mem_nil e)⟩
  | succ n ih =>
    intro t p B htlen hplen hBt hBp hring hsum
    rw [genRun_succ_eq]
    by_cases hguard : minL ≤ t ∨ withinMax maxL p = true
    case neg =>
      rw [if_neg hguard]
      exact ⟨List.Pairwise.nil, fun e he => absurd he (List.not_mem_nil e)⟩
    rw [if_pos hguard]
    set nt := if minL ≤ t then t - d else t with hnt_def
    set np := if withinMax maxL p = true then p + d else p with hnp_def
    have hnt_le : nt ≤ t := by
      rw [hnt_def]
      split <;> omega
    have hnt_len : nt ≤ len := le_trans hnt_le htlen
    have hnp_ge : p ≤ np := by
      rw [hnp_def]
      split <;> omega
    have hnp_len : len < np := lt_of_lt_of_le hplen hnp_ge
    have hnp_le : np ≤ p + d := by
      rw [hnp_def]
      split <;> omega
    have hminL_nt : minL ≤ nt → minL ≤ t := fun h => le_trans h hnt_le
    have hnt_of_minL : minL ≤ nt → nt = t - d := by
      intro h
      rw [hnt_def, if_pos (hminL_nt h)]
    have hnp_stalled : withinMax maxL p ≠ true → np = p := by
      intro h
      rw [hnp_def, if_neg h]
    have hring' : minL ≤ nt → withinMax maxL np = true → 2 * len ≤ nt + np := by
      intro h1 h2
      have ht' := hminL_nt h1
      by_cases hp : withinMax maxL p = true
      · rw [hnt_of_minL h1, hnp_def, if_pos hp]
        have := hring ht' hp
        omega
      · rw [hnp_stalled hp] at h2
        exact absurd h2 hp
    have hsum' : minL ≤ nt → nt + np ≤ 2 * len + d := by
      intro h1
      have ht' := hminL_nt h1
      rw [hnt_of_minL h1]
      have := hsum ht'
      omega
    have key : ∀ (E : List Int) (B' : Nat),
        List.Pairwise (fun a b : Int => a.natAbs ≤ b.natAbs) E →
        (∀ e ∈ E, B ≤ e.natAbs) →
        (∀ e ∈ E, e.natAbs ≤ B') →
        B ≤ B' →
        (minL ≤ nt → B' ≤ (len - nt).toNat) →
        (withinMax maxL np = true → B' ≤ (np - len).toNat) →
        List.Pairwise (fun a b : Int => a.natAbs ≤ b.natAbs)
          (E ++ (genRun len minL maxL d n nt np).1) ∧
        ∀ e ∈ E ++ (genRun len minL maxL d n nt np).1, B ≤ e.natAbs := by
      intro E B' hPw hlow hhigh hBB' hBt' hBp'
      obtain ⟨ihPw, ihlow⟩ := ih nt np B' hnt_len hnp_len hBt' hBp' hring' hsum'
      constructor
      · rw [List.pairwise_append]
        exact ⟨hPw, ihPw, fun x hx y hy => le_trans (hhigh x hx) (ihlow y hy)⟩
      · intro e he
        rcases List.mem_append.mp he with he | he
        · exact hlow e he
        · exact le_trans hBB' (ihlow e he)
    by_cases hc1 : minL ≤ t ∧ withinMax maxL t = true <;>
      by_cases hc2 : withinMax maxL p = true ∧ minL ≤ p
    · -- both sides emit
      rw [if_pos hc1, if_pos hc2]
      have h2l := hring hc1.1 hc2.1
      have hPw : List.Pairwise (fun a b : Int => a.natAbs ≤ b.natAbs)
          ([t - len] ++ [p - len]) := by
        rw [List.pairwise_append]
        refine ⟨List.pairwise_singleton _ _, List.pairwise_singleton _ _, ?_⟩
        intro x hx y hy
        rw [List.mem_singleton] at hx hy
        subst hx
        subst hy
        show (t - len).natAbs ≤ (p - len).natAbs
        omega
      have hlow : ∀ e ∈ [t - len] ++ [p - len], B ≤ e.natAbs := by
        intro e he
        have h1 := hBt hc1.1
        have h2 := hBp hc2.1
        rcases List.mem_append.mp he with he | he <;> rw [List.mem_singleton] at he <;>
          subst he <;> omega
      have hhigh : ∀ e ∈ [t - len] ++ [p - len], e.natAbs ≤ (p - len).toNat := by
        intro e he
        rcases List.mem_append.mp he with he | he <;> rw [List.mem_singleton] at he <;>
          subst he <;> omega
      by_cases hbreak : nt = t ∧ np = p
      · rw [if_pos hbreak]
        exact ⟨hPw, hlow⟩
      · rw [if_neg hbreak]
        refine key _ _ hPw hlow hhigh (hBp hc2.1) ?_ ?_
        · intro h
          rw [hnt_of_minL h]
          have := hsum (hminL_nt h)
          omega
        · intro h
          omega
    · -- only the truncation side emits
      rw [if_pos hc1, if_neg hc2]
      have hPw : List.Pairwise (fun a b : Int => a.natAbs ≤ b.natAbs)
          ([t - len] ++ []) := by
        rw [List.append_nil]
        exact List.pairwise_singleton _ _
      have hlow : ∀ e ∈ [t - len] ++ ([] : List Int), B ≤ e.natAbs := by
        intro e he
        have h1 := hBt hc1.1
        rw [List.append_nil, List.mem_singleton] at he
        subst he
        omega
      have hhigh : ∀ e ∈ [t - len] ++ ([] : List Int), e.natAbs ≤ (len - t).toNat := by
        intro e he
        rw [List.append_nil, List.mem_singleton] at he
        subst he
        omega
      by_cases hbreak : nt = t ∧ np = p
      · rw [if_pos hbreak]
        exact ⟨hPw, hlow⟩
      · rw [if_neg hbreak]
        refine key _ _ hPw hlow hhigh (hBt hc1.1) ?_ ?_
        · intro h
          have := hnt_le
          omega
        · intro h
          by_cases hp : withinMax maxL p = true
          · have h2l := hring hc1.1 hp
            have := hnp_ge
            omega
          · rw [hnp_stalled hp] at h
            exact absurd h hp
    · -- only the padding side emits
      rw [if_neg hc1, if_pos hc2]
      have hPw : List.Pairwise (fun a b : Int => a.natAbs ≤ b.natAbs)
          (([] : List Int) ++ [p - len]) := by
        rw [List.nil_append]
        exact List.pairwise_singleton _ _
      have hlow : ∀ e ∈ ([] : List Int) ++ [p - len], B ≤ e.natAbs := by
        intro e he
        have h2 := hBp hc2.1
        rw [List.nil_append, List.mem_singleton] at he
        subst he
        omega
      have hhigh : ∀ e ∈ ([] : List Int) ++ [p - len], e.natAbs ≤ (p - len).toNat := by
        intro e he
        rw [List.nil_append, List.mem_singleton] at he
        subst he
        omega
      by_cases hbreak : nt = t ∧ np = p
      · rw [if_pos hbreak]
        exact ⟨hPw, hlow⟩
      · rw [if_neg hbreak]
        refine key _ _ hPw hlow hhigh (hBp hc2.1) ?_ ?_
        · intro h
          rw [hnt_of_minL h]
          have := hsum (hminL_nt h)
          omega
        · intro h
          have := hnp_ge
          omega
    · -- neither side emits
      rw [if_neg hc1, if_neg hc2]
      have hPw : List.Pairwise (fun a b : Int => a.natAbs ≤ b.natAbs)
          (([] : List Int) ++ []) := List.Pairwise.nil
      have hlow : ∀ e ∈ ([] : List Int) ++ [], B ≤ e.natAbs := by
        intro e he
        rw [List.nil_append] at he
        exact absurd he (List.not_mem_nil e)
      have hhigh : ∀ e ∈ ([] : List Int) ++ [], e.natAbs ≤ B := by
        intro e he
        rw [List.nil_append] at he
        exact absurd he (List.not_mem_nil e)
      by_cases hbreak : nt = t ∧ np = p
      · rw [if_pos hbreak]
        exact ⟨hPw, hlow⟩
      · rw [if_neg hbreak]
        refine key _ _ hPw hlow hhigh (le_refl B) ?_ ?_
        · intro h
          have h1 := hBt (hminL_nt h)
          have := hnt_le
          omega
        · intro h
          by_cases hp : withinMax maxL p = true
          · have h2 := hBp hp
            have := hnp_ge
            omega
          · rw [hnp_stalled hp] at h
            exact absurd h hp

/-- C3 amended: the enumerator yields proposals with nondecreasing absolute
values whenever twice the remainder `length % d` is at most the differential
`d` (in particular whenever there is no divisor constraint, `d = 1`, or the
length is already a multiple); in each ring the truncation-side proposal is
yielded before the padding-side one, so when the remainder is unbalanced
(`2 * (length % d) > d`) the nearer padding proposal comes second and the
order is not nearest-first. -/
theorem iterate_proposals_nearest_first_of_balanced_remainder
    (fuel : Nat) (len minL : Int) (maxL : Option Int) (d : Int)
    (hd : 1 ≤ d) (hbal : 2 * (len % d) ≤ d) :
    List.Pairwise (fun a b : Int => a.natAbs ≤ b.natAbs)
      (iterateOverLengthsSatisfyingConstraints fuel len minL maxL d).1 := by
  have hr0 : 0 ≤ len % d := Int.emod_nonneg len (by omega)
  have hrd : len % d < d := Int.emod_lt_of_pos len (by omega)
  unfold iterateOverLengthsSatisfyingConstraints lengthWhenTruncated lengthWhenPadded
  obtain ⟨hPw, -⟩ := genRun_pairwise len minL maxL d hd fuel (len - len % d)
    (len + d - len % d) 0
    (by omega) (by omega)
    (fun _ => Nat.zero_le _) (fun _ => Nat.zero_le _)
    (by intro h1 h2; omega) (by intro h; omega)
  exact hPw

/-- Witness for `iterate_proposals_nearest_first_of_balanced_remainder` at
length 5 with no divisor constraint (differential 1) and no bounds. -/
theorem iterate_proposals_nearest_first_witness :
    List.Pairwise (fun a b : Int => a.natAbs ≤ b.natAbs)
      (iterateOverLengthsSatisfyingConstraints 3 5 0 none 1).1 :=
  iterate_proposals_nearest_first_of_balanced_remainder 3 5 0 none 1
    (by norm_num) (by norm_num)
